import Mathlib

/-!
Verification development for the UTF-8-ready wildcard matcher in
`fastwildcompare.cpp`.

Memory model: a C buffer is embedded as a `List Nat` of byte values; a
read at an index past the end of the list yields the value 0, matching a
buffer whose accessible tail is zeroed.  Pointer positions become `Nat`
indices.  The `int` length limits of the bounded matcher are embedded as
`Nat` (the spec constrains them to be non-negative).

Every loop of the C source is embedded as a fuel-indexed function that
returns `none` when the fuel runs out; separate lemmas show that the
fuel supplied by the top-level wrappers is always sufficient, so the
wrappers compute exactly the verdicts of the C functions.
-/

namespace Wildcard

/-- `SINGLETON_LIMIT` from the source: greatest byte that is not the
first byte of a multi-byte code point. -/
def SINGLETON_LIMIT : Nat := 0xBF

/-- `TWOFER_LIMIT` from the source: greatest first byte of a 2-byte code
point. -/
def TWOFER_LIMIT : Nat := 0xDF

/-- `THREESOME_LIMIT` from the source: greatest first byte of a 3-byte
code point. -/
def THREESOME_LIMIT : Nat := 0xEF

/-- ASCII code of the star wildcard. -/
def star : Nat := 0x2A

/-- ASCII code of the question-mark wildcard. -/
def quest : Nat := 0x3F

/-- Byte read at index `i` of buffer `s`; 0 past the end of the list. -/
def byteAt (s : List Nat) (i : Nat) : Nat := s.getD i 0

/-- The number of bytes `CodePointAdvance` adds to the position: the sum
of the four indicator terms of the pointer bump in the source. -/
def cpWidth (s : List Nat) (i : Nat) : Nat :=
  (if 0 < byteAt s i then 1 else 0) +
  (if SINGLETON_LIMIT < byteAt s i ∧ byteAt s (i+1) ≠ 0 then 1 else 0) +
  (if TWOFER_LIMIT < byteAt s i ∧ byteAt s (i+2) ≠ 0 then 1 else 0) +
  (if THREESOME_LIMIT < byteAt s i ∧ byteAt s (i+3) ≠ 0 then 1 else 0)

/-- `CodePointAdvance`: advances position `i` in `s` by one code point,
returns the new position and whether the byte there is non-null. -/
def CodePointAdvance (s : List Nat) (i : Nat) : Nat × Bool :=
  let j := i + cpWidth s i
  (j, byteAt s j != 0)

/-- `CodePointCompare`: byte-for-byte equality of the code points at
`ia` in `a` and `ib` in `b`; the number of bytes compared is derived
from the lead byte of `a` only. -/
def CodePointCompare (a : List Nat) (ia : Nat) (b : List Nat) (ib : Nat) : Bool :=
  if byteAt a ia ≠ byteAt b ib then false
  else if SINGLETON_LIMIT < byteAt a ia ∧ byteAt a (ia+1) ≠ byteAt b (ib+1) then false
  else if TWOFER_LIMIT < byteAt a ia ∧ byteAt a (ia+2) ≠ byteAt b (ib+2) then false
  else if THREESOME_LIMIT < byteAt a ia ∧ byteAt a (ia+3) ≠ byteAt b (ib+3) then false
  else true

/-- `CodePointAdvanceAndCompare`: advances the position `ib` in `b` by
one code point, then compares the code point there against the one at
`ia` in `a`.  Returns the new position and the comparison verdict. -/
def CodePointAdvanceAndCompare (a : List Nat) (ia : Nat) (b : List Nat) (ib : Nat) :
    Nat × Bool :=
  let j := ib + cpWidth b ib
  (j, CodePointCompare a ia b j)

/-- Fueled loop of `CodePointCount`: repeated `CodePointAdvance` until
the advance reports a null byte, counting one per successful advance. -/
def cpCountGo (s : List Nat) : Nat → Nat → Nat → Option Nat
  | 0, _, _ => none
  | fuel+1, i, acc =>
    let j := i + cpWidth s i
    if byteAt s j ≠ 0 then cpCountGo s fuel j (acc + 1) else some acc

/-- `CodePointCount`: number of code points in the null-terminated
buffer `s`. -/
def CodePointCount (s : List Nat) : Nat :=
  (cpCountGo s (s.length + 1) 0 (if byteAt s 0 ≠ 0 then 1 else 0)).getD 0

/-- Loop of the subject-exhausted branch of the first loop of
`FastWildCompareUtf8` (`while (*pWild == '*') { if (!(*(++pWild)))
return true; } return false;`), over the pattern suffix. -/
def starTailL : List Nat → Bool
  | [] => false
  | b :: rest => if b = star then (if byteAt rest 0 = 0 then true else starTailL rest) else false

/-- The subject-exhausted branch at pattern position `i`. -/
def starTail (w : List Nat) (i : Nat) : Bool := starTailL (w.drop i)

/-- Length of the run of star bytes at the head of a buffer suffix:
the number of iterations of `while (*(++pWild) == '*')`. -/
def starRun : List Nat → Nat
  | [] => 0
  | b :: rest => if b = star then starRun rest + 1 else 0

/-- The star-collapsing step of the second loop of
`FastWildCompareUtf8`: `while (*(++pWild) == '*') continue;` starting
with `pWild` at position `i`; returns the final position. -/
def skipStarsB (w : List Nat) (i : Nat) : Nat := i + 1 + starRun (w.drop (i+1))

/-- Length of the run of question-mark bytes at the head of a buffer
suffix: the number of iterations of `while (*pWildSequence == '?')`. -/
def questRun : List Nat → Nat
  | [] => 0
  | b :: rest => if b = quest then questRun rest + 1 else 0

/-- Fueled star-collapsing loop of the first loop of
`FastWildCompareUtf8`: `while (CodePointAdvance(&pWild) && *pWild ==
'*') continue;`; returns the final pattern position. -/
def skipStarsF (w : List Nat) : Nat → Nat → Option Nat
  | 0, _ => none
  | fuel+1, i =>
    let j := i + cpWidth w i
    if byteAt w j = star then skipStarsF w fuel j else some j

/-- Fueled search loop of `FastWildCompareUtf8`
(`while (!CodePointCompare(pWild, pTame)) { if
(!CodePointAdvance(&pTame)) return false; }`): `some (some it)` is a
found subject position, `some none` means the subject was exhausted (the
matcher returns false), `none` means out of fuel. -/
def searchF (w : List Nat) (iw : Nat) (t : List Nat) : Nat → Nat → Option (Option Nat)
  | 0, _ => none
  | fuel+1, it =>
    if CodePointCompare w iw t it then some (some it)
    else
      let j := it + cpWidth t it
      if byteAt t j = 0 then some none
      else searchF w iw t fuel j

/-- Fueled retry loop of `FastWildCompareUtf8`
(`while (!CodePointAdvanceAndCompare(pWild, &pTameSequence)) { if
(!*pTameSequence) return false; }`): `some (some j)` is the new fallback
subject position, `some none` means the subject was exhausted. -/
def retryF (w : List Nat) (iw : Nat) (t : List Nat) : Nat → Nat → Option (Option Nat)
  | 0, _ => none
  | fuel+1, its =>
    let j := its + cpWidth t its
    if CodePointCompare w iw t j then some (some j)
    else if byteAt t j = 0 then some none
    else retryF w iw t fuel j

/-- Fueled first loop of `FastWildCompareUtf8`.  `Sum.inl v` is a final
verdict; `Sum.inr (iw, it)` is the `break` into the second loop, with
the pattern and subject positions (which at that point coincide with the
saved fallback positions). -/
def loop1F (w t : List Nat) : Nat → Nat → Nat → Option (Bool ⊕ Nat × Nat)
  | 0, _, _ => none
  | fuel+1, iw, it =>
    if byteAt t it = 0 then
      if byteAt w iw ≠ 0 then some (Sum.inl (starTail w iw))
      else some (Sum.inl true)
    else if byteAt w iw = star then
      match skipStarsF w (w.length + 1) iw with
      | none => none
      | some jw =>
        if byteAt w jw = 0 then some (Sum.inl true)
        else if byteAt w jw ≠ quest then
          match searchF w jw t (t.length + 1) it with
          | none => none
          | some none => some (Sum.inl false)
          | some (some it2) => some (Sum.inr (jw, it2))
        else some (Sum.inr (jw, it))
    else if CodePointCompare w iw t it = false ∧ byteAt w iw ≠ quest then
      some (Sum.inl false)
    else loop1F w t fuel (iw + cpWidth w iw) (it + cpWidth t it)

/-- Fueled second loop of `FastWildCompareUtf8`.  State: pattern
position `iw`, subject position `it`, fallback pattern position `iws`,
fallback subject position `its`. -/
def loop2F (w t : List Nat) : Nat → Nat → Nat → Nat → Nat → Option Bool
  | 0, _, _, _, _ => none
  | fuel+1, iw, it, iws, its =>
    if byteAt w iw = star then
      let jw := skipStarsB w iw
      if byteAt w jw = 0 then some true
      else if byteAt t it = 0 then some false
      else if byteAt w jw ≠ quest then
        match searchF w jw t (t.length + 1) it with
        | none => none
        | some none => some false
        | some (some it2) =>
          if byteAt t it2 = 0 then some (decide (byteAt w jw = 0))
          else loop2F w t fuel (jw + cpWidth w jw) (it2 + cpWidth t it2) jw it2
      else
        if byteAt t it = 0 then some (decide (byteAt w jw = 0))
        else loop2F w t fuel (jw + cpWidth w jw) (it + cpWidth t it) jw it
    else if CodePointCompare w iw t it = false ∧ byteAt w iw ≠ quest then
      if byteAt t it = 0 then some false
      else
        let k := questRun (w.drop iws)
        let iws2 := iws + k
        let its2 := its + k
        match retryF w iws2 t (t.length + 1) its2 with
        | none => none
        | some none => some false
        | some (some its3) =>
          if byteAt t its3 = 0 then some (decide (byteAt w iws2 = 0))
          else loop2F w t fuel (iws2 + cpWidth w iws2) (its3 + cpWidth t its3) iws2 its3
    else
      if byteAt t it = 0 then some (decide (byteAt w iw = 0))
      else loop2F w t fuel (iw + cpWidth w iw) (it + cpWidth t it) iws its

/-- Fuel given to the first loop by the wrapper. -/
def fuel1 (t : List Nat) : Nat := t.length + 2

/-- Fuel given to the second loop by the wrapper. -/
def fuel2 (t : List Nat) : Nat := (t.length + 1) * (t.length + 5)

/-- The whole run of `FastWildCompareUtf8` as an `Option`: `none` only
if some fuel ran out (shown impossible separately). -/
def matchRun (w t : List Nat) : Option Bool :=
  match loop1F w t (fuel1 t) 0 0 with
  | none => none
  | some (Sum.inl v) => some v
  | some (Sum.inr (iw, it)) => loop2F w t (fuel2 t) iw it iw it

/-- `FastWildCompareUtf8` on embedded buffers. -/
def FastWildCompareUtf8 (w t : List Nat) : Bool := (matchRun w t).getD false

/-!  The bounded matcher `FastWildLenCompareUtf8`.  Its loops carry the
code-point counters `iWild`, `iTame`, `iWildSequence`, `iTameSequence`
of the source in addition to the positions. -/

/-- Loop of the subject-exhausted branch of the first loop of
`FastWildLenCompareUtf8` (`while (*(pWild++) == '*') { if (lenWild <=
++iWild) return true; } return false;`), over the pattern suffix, with
`cnt` the current value of `iWild`. -/
def starTailLenL (lenW : Nat) : List Nat → Nat → Bool
  | [], _ => false
  | b :: rest, cnt =>
    if b = star then
      (if lenW ≤ cnt + 1 then true else starTailLenL lenW rest (cnt + 1))
    else false

/-- Fueled star-collapsing loop of the first loop of
`FastWildLenCompareUtf8` (`while (CodePointAdvance(&pWild)) { iWild++;
if (*pWild == '*' && iWild < lenWild) continue; else break; }`); returns
the final pattern position and `iWild` count. -/
def skipStarsLF (w : List Nat) (lenW : Nat) : Nat → Nat → Nat → Option (Nat × Nat)
  | 0, _, _ => none
  | fuel+1, i, cnt =>
    let j := i + cpWidth w i
    if byteAt w j = 0 then some (j, cnt)
    else if byteAt w j = star ∧ cnt + 1 < lenW then skipStarsLF w lenW fuel j (cnt + 1)
    else some (j, cnt + 1)

/-- Fueled star-collapsing loop of the second loop of
`FastWildLenCompareUtf8` (`while (*(++pWild) == '*') { if (lenWild <=
++iWild) return true; }`), entered with `cnt` the already-incremented
`iWild`.  Result: final position, final count, and whether the loop
returned true early. -/
def skipStarsBLF (w : List Nat) (lenW : Nat) : Nat → Nat → Nat → Option (Nat × Nat × Bool)
  | 0, _, _ => none
  | fuel+1, i, cnt =>
    if byteAt w (i+1) = star then
      (if lenW ≤ cnt + 1 then some (i + 1, cnt + 1, true)
       else skipStarsBLF w lenW fuel (i + 1) (cnt + 1))
    else some (i + 1, cnt, false)

/-- Fueled search loop of `FastWildLenCompareUtf8`
(`while (!CodePointCompare(pWild, pTame)) { if
(!CodePointAdvance(&pTame)) return false; iTame++; }`): also yields the
number of `iTame` increments. -/
def searchLF (w : List Nat) (iw : Nat) (t : List Nat) : Nat → Nat → Nat → Option (Option (Nat × Nat))
  | 0, _, _ => none
  | fuel+1, it, cnt =>
    if CodePointCompare w iw t it then some (some (it, cnt))
    else
      let j := it + cpWidth t it
      if byteAt t j = 0 then some none
      else searchLF w iw t fuel j (cnt + 1)

/-- Fueled retry loop of `FastWildLenCompareUtf8`
(`while (!CodePointAdvanceAndCompare(pWild, &pTameSequence)) { if
(lenTame <= ++iTameSequence || !*pTameSequence) return false; }`): the
counter is incremented only on a failed compare, exactly as in the
source. -/
def retryLF (w : List Nat) (iw : Nat) (t : List Nat) (lenT : Nat) :
    Nat → Nat → Nat → Option (Option (Nat × Nat))
  | 0, _, _ => none
  | fuel+1, its, cnt =>
    let j := its + cpWidth t its
    if CodePointCompare w iw t j then some (some (j, cnt))
    else if lenT ≤ cnt + 1 ∨ byteAt t j = 0 then some none
    else retryLF w iw t lenT fuel j (cnt + 1)

/-- Fueled first loop of `FastWildLenCompareUtf8`.  State: pattern
position `iwp`, subject position `itp`, counter `cW` (`iWild`, which the
upper loop uses as the index of both inputs).  `Sum.inr` is the `break`
into the second loop carrying `(pWild, pTame, iWild, iTame)`. -/
def loop1LF (w t : List Nat) (lenW lenT : Nat) :
    Nat → Nat → Nat → Nat → Option (Bool ⊕ Nat × Nat × Nat × Nat)
  | 0, _, _, _ => none
  | fuel+1, iwp, itp, cW =>
    if lenT ≤ cW ∨ byteAt t itp = 0 then
      if cW < lenW ∧ byteAt w iwp ≠ 0 then
        some (Sum.inl (starTailLenL lenW (w.drop iwp) cW))
      else some (Sum.inl true)
    else if lenW ≤ cW then some (Sum.inl false)
    else if byteAt w iwp = star then
      match skipStarsLF w lenW (w.length + 2) iwp cW with
      | none => none
      | some (jw, cW2) =>
        if byteAt w jw = 0 then some (Sum.inl true)
        else if byteAt w jw ≠ quest then
          match searchLF w jw t (t.length + 1) itp 0 with
          | none => none
          | some none => some (Sum.inl false)
          | some (some (it2, d)) => some (Sum.inr (jw, it2, cW2, cW + d))
        else some (Sum.inr (jw, itp, cW2, cW))
    else if CodePointCompare w iwp t itp = false ∧ byteAt w iwp ≠ quest then
      some (Sum.inl false)
    else loop1LF w t lenW lenT fuel (iwp + cpWidth w iwp) (itp + cpWidth t itp) (cW + 1)

/-- Fueled second loop of `FastWildLenCompareUtf8`.  State: positions
`iwp`, `itp`, counters `cW`, `cT`, saved fallback positions `siw`,
`sit` with their counters `scW`, `scT`. -/
def loop2LF (w t : List Nat) (lenW lenT : Nat) :
    Nat → Nat → Nat → Nat → Nat → Nat → Nat → Nat → Nat → Option Bool
  | 0, _, _, _, _, _, _, _, _ => none
  | fuel+1, iwp, itp, cW, cT, siw, sit, scW, scT =>
    if byteAt w iwp = star then
      match skipStarsBLF w lenW (w.length + 2) iwp (cW + 1) with
      | none => none
      | some (jw, cW2, early) =>
        if early then some true
        else if lenW ≤ cW2 ∨ byteAt w jw = 0 then some true
        else if lenT ≤ cT ∨ byteAt t itp = 0 then some false
        else if byteAt w jw ≠ quest then
          match searchLF w jw t (t.length + 1) itp 0 with
          | none => none
          | some none => some false
          | some (some (it2, d)) =>
            if lenT ≤ cT + d ∨ byteAt t it2 = 0 then
              some (decide (lenW ≤ cW2 ∨ byteAt w jw = 0))
            else
              loop2LF w t lenW lenT fuel (jw + cpWidth w jw) (it2 + cpWidth t it2)
                (cW2 + 1) (cT + d + 1) jw it2 cW2 (cT + d)
        else
          if lenT ≤ cT ∨ byteAt t itp = 0 then
            some (decide (lenW ≤ cW2 ∨ byteAt w jw = 0))
          else
            loop2LF w t lenW lenT fuel (jw + cpWidth w jw) (itp + cpWidth t itp)
              (cW2 + 1) (cT + 1) jw itp cW2 cT
    else if CodePointCompare w iwp t itp = false ∧ byteAt w iwp ≠ quest then
      if lenT ≤ cT ∨ byteAt t itp = 0 then some false
      else
        let k := questRun (w.drop siw)
        match retryLF w (siw + k) t lenT (t.length + 1) (sit + k) (scT + k) with
        | none => none
        | some none => some false
        | some (some (sit3, scT3)) =>
          if lenT ≤ scT3 ∨ byteAt t sit3 = 0 then
            some (decide (lenW ≤ scW + k ∨ byteAt w (siw + k) = 0))
          else
            loop2LF w t lenW lenT fuel (siw + k + cpWidth w (siw + k))
              (sit3 + cpWidth t sit3) (scW + k + 1) (scT3 + 1) (siw + k) sit3 (scW + k) scT3
    else
      if lenT ≤ cT ∨ byteAt t itp = 0 then
        some (decide (lenW ≤ cW ∨ byteAt w iwp = 0))
      else
        loop2LF w t lenW lenT fuel (iwp + cpWidth w iwp) (itp + cpWidth t itp)
          (cW + 1) (cT + 1) siw sit scW scT

/-- The whole run of `FastWildLenCompareUtf8` as an `Option`. -/
def matchLenRun (w t : List Nat) (lenW lenT : Nat) : Option Bool :=
  match loop1LF w t lenW lenT (fuel1 t) 0 0 0 with
  | none => none
  | some (Sum.inl v) => some v
  | some (Sum.inr (iw, it, cW, cT)) => loop2LF w t lenW lenT (fuel2 t) iw it cW cT iw it cW cT

/-- `FastWildLenCompareUtf8` on embedded buffers. -/
def FastWildLenCompareUtf8 (w t : List Nat) (lenW lenT : Nat) : Bool :=
  (matchLenRun w t lenW lenT).getD false

/-- The byte width a lead byte announces for its unit, per the lead-byte
ranges of the source (`SINGLETON_LIMIT`, `TWOFER_LIMIT`,
`THREESOME_LIMIT`). -/
def nominalWidth (b : Nat) : Nat :=
  if b ≤ SINGLETON_LIMIT then 1
  else if b ≤ TWOFER_LIMIT then 2
  else if b ≤ THREESOME_LIMIT then 3
  else 4

/-- C9: if the byte at the current position is the zero terminator,
`CodePointAdvance` leaves the position unchanged and reports that no
further code point follows. -/
theorem C9_advance_at_terminator (s : List Nat) (i : Nat) (h : byteAt s i = 0) :
    CodePointAdvance s i = (i, false) := by
  have hw : cpWidth s i = 0 := by
    simp [cpWidth, h, SINGLETON_LIMIT, TWOFER_LIMIT, THREESOME_LIMIT]
  simp [CodePointAdvance, hw, h]

/-- Witness for C9 at a concrete input: the empty buffer at position 0. -/
theorem C9_advance_at_terminator_witness :
    byteAt [] 0 = 0 ∧ CodePointAdvance [] 0 = (0, false) :=
  ⟨by decide, C9_advance_at_terminator [] 0 (by decide)⟩

/-- C3 counterexample: at buffer `[0xE0, 0x00, 0x41]`, position 0, the
lead byte announces a multi-byte unit (nominal width 3) and a zero byte
occurs at trailing offset 1, yet `CodePointAdvance` moves the position
to 2, past that first zero byte. -/
theorem C3_counterexample :
    SINGLETON_LIMIT < byteAt [0xE0, 0x00, 0x41] 0 ∧
    nominalWidth (byteAt [0xE0, 0x00, 0x41] 0) = 3 ∧
    byteAt [0xE0, 0x00, 0x41] (0 + 1) = 0 ∧
    0 + 1 < (CodePointAdvance [0xE0, 0x00, 0x41] 0).1 := by
  decide

/-- C3 amended: each trailing-byte extension is gated on that byte alone
being non-zero, so the advance is guaranteed to stop at or before a zero
trailing byte only when every trailing byte from there to the end of the
nominal width is zero (as at a true terminator); then the position never
moves past that zero byte. -/
theorem C3_truncated_advance (s : List Nat) (i k : Nat)
    (hmb : SINGLETON_LIMIT < byteAt s i) (hk1 : 1 ≤ k)
    (hkw : k < nominalWidth (byteAt s i))
    (hz : ∀ j, k ≤ j → j < nominalWidth (byteAt s i) → byteAt s (i + j) = 0) :
    (CodePointAdvance s i).1 ≤ i + k := by
  have n1 : k ≤ 1 → ¬(SINGLETON_LIMIT < byteAt s i ∧ byteAt s (i + 1) ≠ 0) := by
    intro hk h
    exact h.2 (hz 1 (by omega) (by omega))
  have n2 : k ≤ 2 → ¬(TWOFER_LIMIT < byteAt s i ∧ byteAt s (i + 2) ≠ 0) := by
    intro hk h
    have hn : 2 < nominalWidth (byteAt s i) := by
      have := h.1
      unfold nominalWidth
      simp only [SINGLETON_LIMIT, TWOFER_LIMIT, THREESOME_LIMIT] at *
      split_ifs <;> omega
    exact h.2 (hz 2 hk hn)
  have n3 : k ≤ 3 → ¬(THREESOME_LIMIT < byteAt s i ∧ byteAt s (i + 3) ≠ 0) := by
    intro hk h
    have hn : 3 < nominalWidth (byteAt s i) := by
      have := h.1
      unfold nominalWidth
      simp only [SINGLETON_LIMIT, TWOFER_LIMIT, THREESOME_LIMIT] at *
      split_ifs <;> omega
    exact h.2 (hz 3 hk hn)
  have key : cpWidth s i ≤ k := by
    unfold cpWidth
    rcases Nat.lt_or_ge k 4 with hk4 | hk4
    · interval_cases k
      · rw [if_neg (n1 le_rfl), if_neg (n2 (by omega)), if_neg (n3 (by omega))]
        split_ifs <;> omega
      · rw [if_neg (n2 le_rfl), if_neg (n3 (by omega))]
        split_ifs <;> omega
      · rw [if_neg (n3 le_rfl)]
        split_ifs <;> omega
    · split_ifs <;> omega
  show i + cpWidth s i ≤ i + k
  omega

/-- Witness for C3 amended: buffer `[0xE0, 0, 0]`, first zero at
trailing offset 1, all later trailing bytes within the nominal width
zero; the advance stops at the zero. -/
theorem C3_truncated_advance_witness :
    (CodePointAdvance [0xE0, 0, 0] 0).1 ≤ 0 + 1 :=
  C3_truncated_advance [0xE0, 0, 0] 0 1 (by decide) (by decide) (by decide)
    (fun j h1 h2 => by
      have h3 : j < 3 := by
        rw [show nominalWidth (byteAt [0xE0, 0, 0] 0) = 3 from by decide] at h2
        exact h2
      interval_cases j <;> decide)

/-- C8: the eight concrete scenarios of the spec, written here with the
subject and pattern as ASCII byte lists: match("Hi*", "Hi") is true,
match("ab*d", "abc") is false, match("*issip*ss*", "mississipissippi")
is true, match("*ccd", "abcccd") is true, match("*a?b", "caaab") is
true, match("*aa?", "aaaaa") is true, match("?", "") is false and
match("", "") is true. -/
theorem C8_concrete_scenarios :
    FastWildCompareUtf8 [72, 105, 42] [72, 105] = true ∧
    FastWildCompareUtf8 [97, 98, 42, 100] [97, 98, 99] = false ∧
    FastWildCompareUtf8 [42, 105, 115, 115, 105, 112, 42, 115, 115, 42]
      [109, 105, 115, 115, 105, 115, 115, 105, 112, 105, 115, 115, 105, 112, 112, 105] = true ∧
    FastWildCompareUtf8 [42, 99, 99, 100] [97, 98, 99, 99, 99, 100] = true ∧
    FastWildCompareUtf8 [42, 97, 63, 98] [99, 97, 97, 97, 98] = true ∧
    FastWildCompareUtf8 [42, 97, 97, 63] [97, 97, 97, 97, 97] = true ∧
    FastWildCompareUtf8 [63] [] = false ∧
    FastWildCompareUtf8 [] [] = true := by
  decide

/-- C2: evaluation of the code at the failing input.  The pattern is
`*??BZ` and the subject is the single 4-byte unit U+10000 followed by
`BZ`, i.e. 3 code points in total.  With `?` consuming exactly one code
point the pattern cannot match a 3-unit subject (it needs at least four
units), yet the matcher returns true: in the retry step the two `?`
skips advance the fallback subject position by two bytes (`++`), into
the middle of the 4-byte unit, instead of by two whole units. -/
theorem C2_failing_input_eval :
    FastWildCompareUtf8 [42, 63, 63, 66, 90] [0xF0, 0x90, 0x80, 0x80, 66, 90] = true ∧
    CodePointCount [42, 63, 63, 66, 90] = 5 ∧
    CodePointCount [0xF0, 0x90, 0x80, 0x80, 66, 90] = 3 := by
  decide

/-- C1: evaluation of both matchers at the failing input.  For the
pattern `*??BZ` against the subject U+10000 `B` `Z`, with the limits
equal to the true code-point counts (5 and 3), the unbounded matcher
returns true while the bounded matcher returns false: the two disagree
on a well-formed terminator-delimited pair, because the bounded retry
loop counts each byte-step of the (byte-misaligned) fallback subject
position as a whole unit against the subject limit. -/
theorem C1_failing_input_eval :
    FastWildCompareUtf8 [42, 63, 63, 66, 90] [0xF0, 0x90, 0x80, 0x80, 66, 90] = true ∧
    FastWildLenCompareUtf8 [42, 63, 63, 66, 90] [0xF0, 0x90, 0x80, 0x80, 66, 90] 5 3 = false ∧
    CodePointCount [42, 63, 63, 66, 90] = 5 ∧
    CodePointCount [0xF0, 0x90, 0x80, 0x80, 66, 90] = 3 := by
  decide

/-- C10: with a pattern unit limit of 0 the bounded matcher treats the
pattern as empty: it returns true exactly when the subject unit limit is
0 or the subject begins with the terminator, for any buffers. -/
theorem C10_zero_pattern_limit (w t : List Nat) (lenT : Nat) :
    FastWildLenCompareUtf8 w t 0 lenT = true ↔ (lenT = 0 ∨ byteAt t 0 = 0) := by
  unfold FastWildLenCompareUtf8 matchLenRun fuel1
  rcases Nat.eq_zero_or_pos lenT with h0 | hpos
  · subst h0
    simp [loop1LF]
  · rcases Nat.eq_zero_or_pos (byteAt t 0) with hz | hb
    · simp [loop1LF, hz, Nat.le_zero, Nat.pos_iff_ne_zero.mp hpos]
    · have h1 : ¬(lenT ≤ 0 ∨ byteAt t 0 = 0) := by omega
      simp [loop1LF, h1, Nat.pos_iff_ne_zero.mp hpos, Nat.pos_iff_ne_zero.mp hb]

/-! Helper lemmas about bytes of terminator-free buffers. -/

theorem byteAt_nil (i : Nat) : byteAt [] i = 0 := by
  simp [byteAt]

theorem byteAt_mem (l : List Nat) (i : Nat) (h : i < l.length) : byteAt l i ∈ l := by
  simp only [byteAt, List.getD_eq_getElem l 0 h]
  exact List.getElem_mem h

theorem byteAt_eq_zero_iff (l : List Nat) (h0 : 0 ∉ l) (i : Nat) :
    byteAt l i = 0 ↔ l.length ≤ i := by
  constructor
  · intro h
    by_contra hlt
    push_neg at hlt
    have hm := byteAt_mem l i hlt
    rw [h] at hm
    exact h0 hm
  · intro h
    simp [byteAt, List.getD, List.getElem?_eq_none h]

theorem byteAt_head_ne_zero (l : List Nat) (h0 : 0 ∉ l) (hne : l ≠ []) :
    byteAt l 0 ≠ 0 := by
  intro h
  rw [byteAt_eq_zero_iff l h0 0] at h
  exact hne (List.eq_nil_of_length_eq_zero (by omega))

theorem starTailL_true_iff (p : List Nat) (h0 : 0 ∉ p) (hne : p ≠ []) :
    starTailL p = true ↔ ∀ b ∈ p, b = star := by
  induction p with
  | nil => exact absurd rfl hne
  | cons b rest ih =>
    by_cases hbs : b = star
    · subst hbs
      by_cases hrnil : rest = []
      · subst hrnil
        simp [starTailL, byteAt_nil]
      · have hrb : byteAt rest 0 ≠ 0 :=
          byteAt_head_ne_zero rest (fun h => h0 (by simp [h])) hrnil
        have hih := ih (fun h => h0 (by simp [h])) hrnil
        simp [starTailL, hrb, hih]
    · simp [starTailL, hbs]

/-- C6: empty-sequence behaviour of the unbounded matcher: the empty
pattern matches exactly the empty subject, and a pattern matches the
empty subject exactly when it consists solely of zero or more star
units.  Buffers are embedded as terminator-free byte lists. -/
theorem C6_empty_sequences :
    FastWildCompareUtf8 [] [] = true ∧
    (∀ t : List Nat, t ≠ [] → 0 ∉ t → FastWildCompareUtf8 [] t = false) ∧
    (∀ p : List Nat, 0 ∉ p → (FastWildCompareUtf8 p [] = true ↔ ∀ b ∈ p, b = star)) := by
  refine ⟨by decide, ?_, ?_⟩
  · intro t hne h0
    have hb : byteAt t 0 ≠ 0 := byteAt_head_ne_zero t h0 hne
    have hne0 : byteAt [] 0 ≠ byteAt t 0 := by
      rw [byteAt_nil]
      exact Ne.symm hb
    have hcmp : CodePointCompare [] 0 t 0 = false := by
      simp [CodePointCompare, hne0]
    unfold FastWildCompareUtf8 matchRun fuel1
    simp [loop1F, hb, hcmp, byteAt_nil, star, quest]
  · intro p h0
    rcases eq_or_ne p [] with hnil | hne
    · subst hnil
      simp [show FastWildCompareUtf8 [] [] = true from by decide]
    · have hb : byteAt p 0 ≠ 0 := byteAt_head_ne_zero p h0 hne
      have hrun : FastWildCompareUtf8 p [] = starTailL p := by
        unfold FastWildCompareUtf8 matchRun fuel1
        simp [loop1F, hb, byteAt_nil, starTail]
      rw [hrun]
      exact starTailL_true_iff p h0 hne

/-- Witness for C6 at concrete inputs: the empty pattern rejects a
non-empty subject, and an all-star pattern matches the empty subject. -/
theorem C6_empty_sequences_witness :
    FastWildCompareUtf8 [] [97] = false ∧ FastWildCompareUtf8 [42] [] = true :=
  ⟨C6_empty_sequences.2.1 [97] (by decide) (by decide),
   (C6_empty_sequences.2.2 [42] (by decide)).mpr (by decide)⟩

theorem byteAt_eq_zero_of_le (l : List Nat) (i : Nat) (h : l.length ≤ i) :
    byteAt l i = 0 := by
  simp [byteAt, List.getD, List.getElem?_eq_none h]

theorem cpCompare_refl (a : List Nat) (i : Nat) : CodePointCompare a i a i = true := by
  simp [CodePointCompare]

/-- C4: a byte equal to the code of star or of the question mark in a
non-leading position of a multi-byte unit is never treated as a
wildcard: a pattern consisting of one such unit matches the identical
subject unit as a literal comparison.  `u` is a unit whose lead byte
announces exactly the unit's length (2 to 4 bytes), whose trailing
bytes are non-zero, and which contains a wildcard byte value in a
non-leading position. -/
theorem C4_nonleading_wildcard_byte (u : List Nat)
    (hlen2 : 2 ≤ u.length) (hlen4 : u.length ≤ 4)
    (hnom : nominalWidth (byteAt u 0) = u.length)
    (htail : ∀ i, 1 ≤ i → i < u.length → byteAt u i ≠ 0)
    (hwild : ∃ i, 1 ≤ i ∧ i < u.length ∧ (byteAt u i = star ∨ byteAt u i = quest)) :
    FastWildCompareUtf8 u u = true := by
  have hlead : SINGLETON_LIMIT < byteAt u 0 := by
    unfold nominalWidth at hnom
    split_ifs at hnom <;> simp only [SINGLETON_LIMIT] at * <;> omega
  have hb0 : byteAt u 0 ≠ 0 := by
    simp only [SINGLETON_LIMIT] at hlead
    omega
  have hstar0 : byteAt u 0 ≠ star := by
    simp only [SINGLETON_LIMIT] at hlead
    simp only [star]
    omega
  have hquest0 : byteAt u 0 ≠ quest := by
    simp only [SINGLETON_LIMIT] at hlead
    simp only [quest]
    omega
  have hww : cpWidth u 0 = u.length := by
    have h1 := htail 1 le_rfl (by omega)
    have hlead2 := hlead
    unfold cpWidth
    unfold nominalWidth at hnom
    simp only [SINGLETON_LIMIT, TWOFER_LIMIT, THREESOME_LIMIT] at hnom hlead2 ⊢
    simp only [Nat.zero_add]
    rcases (show u.length = 2 ∨ u.length = 3 ∨ u.length = 4 by omega) with hu | hu | hu
    · have hle : byteAt u 0 ≤ 223 := by
        rw [hu] at hnom
        split_ifs at hnom <;> omega
      rw [if_pos (by omega : 0 < byteAt u 0), if_pos ⟨by omega, h1⟩,
        if_neg (fun h => absurd h.1 (by omega)), if_neg (fun h => absurd h.1 (by omega))]
      omega
    · have h2 := htail 2 (by omega) (by omega)
      have hgt : 223 < byteAt u 0 ∧ byteAt u 0 ≤ 239 := by
        rw [hu] at hnom
        constructor <;> (by_contra hc; push_neg at hc; split_ifs at hnom <;> omega)
      rw [if_pos (by omega : 0 < byteAt u 0), if_pos ⟨by omega, h1⟩,
        if_pos ⟨by omega, h2⟩, if_neg (fun h => absurd h.1 (by omega))]
      omega
    · have h2 := htail 2 (by omega) (by omega)
      have h3 := htail 3 (by omega) (by omega)
      have hgt : 239 < byteAt u 0 := by
        rw [hu] at hnom
        by_contra hc
        push_neg at hc
        split_ifs at hnom <;> omega
      rw [if_pos (by omega : 0 < byteAt u 0), if_pos ⟨by omega, h1⟩,
        if_pos ⟨by omega, h2⟩, if_pos ⟨by omega, h3⟩]
      omega
  have hzlen : byteAt u u.length = 0 := byteAt_eq_zero_of_le u u.length le_rfl
  have e2 : loop1F u u (u.length + 1) u.length u.length = some (Sum.inl true) := by
    rw [loop1F]
    simp [hzlen]
  have e1 : loop1F u u (u.length + 1 + 1) 0 0 = some (Sum.inl true) := by
    rw [loop1F, if_neg hb0, if_neg hstar0, if_neg (by simp [cpCompare_refl])]
    rw [Nat.zero_add, hww]
    exact e2
  unfold FastWildCompareUtf8 matchRun fuel1
  rw [show u.length + 2 = u.length + 1 + 1 from rfl, e1]
  rfl

/-- Witness for C4: the 2-byte unit `[0xC3, 0x3F]`, whose trailing byte
is the code of the question mark, matches itself. -/
theorem C4_nonleading_wildcard_byte_witness :
    FastWildCompareUtf8 [0xC3, 0x3F] [0xC3, 0x3F] = true :=
  C4_nonleading_wildcard_byte [0xC3, 0x3F] (by decide) (by decide) (by decide)
    (fun i h1 h2 => by
      have : i = 1 := by simp at h2; omega
      subst this
      decide)
    ⟨1, le_rfl, by decide, Or.inr (by decide)⟩

/-! Characterization of `CodePointCompare` and `cpWidth`, used to relate
the byte-level walk of the matcher to whole-buffer equality. -/

theorem cpCompare_true_iff (a : List Nat) (ia : Nat) (b : List Nat) (ib : Nat) :
    CodePointCompare a ia b ib = true ↔
      byteAt a ia = byteAt b ib ∧
      (SINGLETON_LIMIT < byteAt a ia → byteAt a (ia+1) = byteAt b (ib+1)) ∧
      (TWOFER_LIMIT < byteAt a ia → byteAt a (ia+2) = byteAt b (ib+2)) ∧
      (THREESOME_LIMIT < byteAt a ia → byteAt a (ia+3) = byteAt b (ib+3)) := by
  unfold CodePointCompare
  split_ifs with c1 c2 c3 c4
  · constructor
    · intro h
      exact absurd h (by decide)
    · rintro ⟨e0, -, -, -⟩
      exact absurd e0 c1
  · constructor
    · intro h
      exact absurd h (by decide)
    · rintro ⟨-, e1, -, -⟩
      exact absurd (e1 c2.1) c2.2
  · constructor
    · intro h
      exact absurd h (by decide)
    · rintro ⟨-, -, e2, -⟩
      exact absurd (e2 c3.1) c3.2
  · constructor
    · intro h
      exact absurd h (by decide)
    · rintro ⟨-, -, -, e3⟩
      exact absurd (e3 c4.1) c4.2
  · push_neg at c1 c2 c3 c4
    exact ⟨fun _ => ⟨c1, c2, c3, c4⟩, fun _ => rfl⟩

theorem cpWidth_le_four (s : List Nat) (i : Nat) : cpWidth s i ≤ 4 := by
  unfold cpWidth
  split_ifs <;> omega

theorem cpWidth_pos (s : List Nat) (i : Nat) (h : byteAt s i ≠ 0) : 1 ≤ cpWidth s i := by
  unfold cpWidth
  rw [if_pos (by omega)]
  split_ifs <;> omega

theorem cpWidth_zero (s : List Nat) (i : Nat) (h : byteAt s i = 0) : cpWidth s i = 0 := by
  unfold cpWidth
  simp only [SINGLETON_LIMIT, TWOFER_LIMIT, THREESOME_LIMIT, h]
  norm_num

theorem cpWidth_eq_of_compare (a : List Nat) (ia : Nat) (b : List Nat) (ib : Nat)
    (h : CodePointCompare a ia b ib = true) : cpWidth a ia = cpWidth b ib := by
  obtain ⟨e0, e1, e2, e3⟩ := (cpCompare_true_iff a ia b ib).mp h
  have t1 : (if SINGLETON_LIMIT < byteAt a ia ∧ byteAt a (ia+1) ≠ 0 then 1 else 0)
      = (if SINGLETON_LIMIT < byteAt b ib ∧ byteAt b (ib+1) ≠ 0 then 1 else 0) := by
    rcases Nat.lt_or_ge SINGLETON_LIMIT (byteAt a ia) with h1 | h1
    · rw [e1 h1, e0]
    · have n1 : ¬(SINGLETON_LIMIT < byteAt a ia ∧ byteAt a (ia+1) ≠ 0) :=
        fun hc => absurd hc.1 (by omega)
      have n2 : ¬(SINGLETON_LIMIT < byteAt b ib ∧ byteAt b (ib+1) ≠ 0) :=
        fun hc => absurd hc.1 (by rw [← e0]; omega)
      rw [if_neg n1, if_neg n2]
  have t2 : (if TWOFER_LIMIT < byteAt a ia ∧ byteAt a (ia+2) ≠ 0 then 1 else 0)
      = (if TWOFER_LIMIT < byteAt b ib ∧ byteAt b (ib+2) ≠ 0 then 1 else 0) := by
    rcases Nat.lt_or_ge TWOFER_LIMIT (byteAt a ia) with h2 | h2
    · rw [e2 h2, e0]
    · have n1 : ¬(TWOFER_LIMIT < byteAt a ia ∧ byteAt a (ia+2) ≠ 0) :=
        fun hc => absurd hc.1 (by omega)
      have n2 : ¬(TWOFER_LIMIT < byteAt b ib ∧ byteAt b (ib+2) ≠ 0) :=
        fun hc => absurd hc.1 (by rw [← e0]; omega)
      rw [if_neg n1, if_neg n2]
  have t3 : (if THREESOME_LIMIT < byteAt a ia ∧ byteAt a (ia+3) ≠ 0 then 1 else 0)
      = (if THREESOME_LIMIT < byteAt b ib ∧ byteAt b (ib+3) ≠ 0 then 1 else 0) := by
    rcases Nat.lt_or_ge THREESOME_LIMIT (byteAt a ia) with h3 | h3
    · rw [e3 h3, e0]
    · have n1 : ¬(THREESOME_LIMIT < byteAt a ia ∧ byteAt a (ia+3) ≠ 0) :=
        fun hc => absurd hc.1 (by omega)
      have n2 : ¬(THREESOME_LIMIT < byteAt b ib ∧ byteAt b (ib+3) ≠ 0) :=
        fun hc => absurd hc.1 (by rw [← e0]; omega)
      rw [if_neg n1, if_neg n2]
  unfold cpWidth
  rw [t1, t2, t3, e0]

theorem cpCompare_bytes (a : List Nat) (ia : Nat) (b : List Nat) (ib : Nat)
    (h : CodePointCompare a ia b ib = true) :
    ∀ k, k < cpWidth a ia → byteAt a (ia + k) = byteAt b (ib + k) := by
  obtain ⟨e0, e1, e2, e3⟩ := (cpCompare_true_iff a ia b ib).mp h
  intro k hk
  have h4 : k < 4 := lt_of_lt_of_le hk (cpWidth_le_four a ia)
  interval_cases k
  · simpa using e0
  · refine e1 ?_
    unfold cpWidth at hk
    simp only [SINGLETON_LIMIT, TWOFER_LIMIT, THREESOME_LIMIT] at *
    split_ifs at hk <;> omega
  · refine e2 ?_
    unfold cpWidth at hk
    simp only [SINGLETON_LIMIT, TWOFER_LIMIT, THREESOME_LIMIT] at *
    split_ifs at hk <;> omega
  · refine e3 ?_
    unfold cpWidth at hk
    simp only [SINGLETON_LIMIT, TWOFER_LIMIT, THREESOME_LIMIT] at *
    split_ifs at hk <;> omega

theorem cpCompare_of_suffix_eq (a : List Nat) (ia : Nat) (b : List Nat) (ib : Nat)
    (h : ∀ j, byteAt a (ia + j) = byteAt b (ib + j)) :
    CodePointCompare a ia b ib = true := by
  refine (cpCompare_true_iff a ia b ib).mpr ⟨?_, fun _ => h 1, fun _ => h 2, fun _ => h 3⟩
  simpa using h 0

theorem byteAt_ne_of_not_mem (l : List Nat) (c : Nat) (h : c ∉ l) (hc : c ≠ 0) (i : Nat) :
    byteAt l i ≠ c := by
  intro h2
  rcases Nat.lt_or_ge i l.length with hl | hl
  · exact h (h2 ▸ byteAt_mem l i hl)
  · exact hc ((h2 ▸ byteAt_eq_zero_of_le l i hl) : c = 0)

theorem starTail_head_ne (w : List Nat) (i : Nat) (h : byteAt w i ≠ star)
    (hlt : i < w.length) : starTail w i = false := by
  unfold starTail
  rw [List.drop_eq_getElem_cons hlt]
  have hh : w[i] ≠ star := by
    rwa [byteAt, List.getD_eq_getElem w 0 hlt] at h
  simp [starTailL, hh]

/-- For a wildcard-free, terminator-free pattern against a
terminator-free subject, one step of the first loop never breaks into
the second loop and decides exactly suffix equality. -/
theorem loop1F_literal (w t : List Nat) (hw0 : 0 ∉ w) (hws : star ∉ w)
    (hwq : quest ∉ w) (ht0 : 0 ∉ t) :
    ∀ fuel i, (t.length - i) + 2 ≤ fuel →
      ∃ v, loop1F w t fuel i i = some (Sum.inl v) ∧
        (v = true ↔ ∀ j, byteAt w (i + j) = byteAt t (i + j)) := by
  intro fuel
  induction fuel with
  | zero => intro i hi; omega
  | succ f ih =>
    intro i hi
    have hwstar : byteAt w i ≠ star := byteAt_ne_of_not_mem w star hws (by decide) i
    have hwquest : byteAt w i ≠ quest := byteAt_ne_of_not_mem w quest hwq (by decide) i
    by_cases htz : byteAt t i = 0
    · by_cases hwz : byteAt w i ≠ 0
      · refine ⟨starTail w i, ?_, ?_⟩
        · rw [loop1F, if_pos htz, if_pos hwz]
        · have hlt : i < w.length := by
            rcases Nat.lt_or_ge i w.length with h | h
            · exact h
            · exact absurd (byteAt_eq_zero_of_le w i h) hwz
          rw [starTail_head_ne w i hwstar hlt]
          refine iff_of_false (by decide) (fun hall => ?_)
          have h00 := hall 0
          simp only [Nat.add_zero] at h00
          rw [htz] at h00
          exact hwz h00
      · push_neg at hwz
        refine ⟨true, ?_, ?_⟩
        · rw [loop1F, if_pos htz, if_neg (by simpa using hwz)]
        · have hwlen : w.length ≤ i := (byteAt_eq_zero_iff w hw0 i).mp hwz
          have htlen : t.length ≤ i := (byteAt_eq_zero_iff t ht0 i).mp htz
          simp only [true_iff]
          intro j
          rw [byteAt_eq_zero_of_le w (i + j) (by omega),
            byteAt_eq_zero_of_le t (i + j) (by omega)]
    · by_cases hc : CodePointCompare w i t i = true
      · have hwidth := cpWidth_eq_of_compare w i t i hc
        have hpos : 1 ≤ cpWidth t i := cpWidth_pos t i htz
        have hilen : i < t.length := by
          rcases Nat.lt_or_ge i t.length with h | h
          · exact h
          · exact absurd (byteAt_eq_zero_of_le t i h) htz
        obtain ⟨v, hv, hiff⟩ := ih (i + cpWidth t i) (by omega)
        refine ⟨v, ?_, ?_⟩
        · rw [loop1F, if_neg htz, if_neg hwstar, if_neg (by simp [hc]), hwidth]
          exact hv
        · rw [hiff]
          constructor
          · intro hsuf j
            rcases Nat.lt_or_ge j (cpWidth t i) with hj | hj
            · exact cpCompare_bytes w i t i hc j (hwidth ▸ hj)
            · obtain ⟨j2, rfl⟩ := Nat.exists_eq_add_of_le hj
              have := hsuf j2
              rw [show i + cpWidth t i + j2 = i + (cpWidth t i + j2) by omega] at this
              exact this
          · intro hsuf j
            have := hsuf (cpWidth t i + j)
            rw [show i + (cpWidth t i + j) = i + cpWidth t i + j by omega] at this
            exact this
      · refine ⟨false, ?_, ?_⟩
        · rw [loop1F, if_neg htz, if_neg hwstar,
            if_pos ⟨Bool.not_eq_true _ ▸ hc, hwquest⟩]
        · exact iff_of_false (by decide)
            (fun hall => hc (cpCompare_of_suffix_eq w i t i hall))

/-- C5: for a pattern containing no star and no question-mark unit (and
no embedded terminator) the matcher decides exact byte-for-byte
equality with the subject, for every terminator-free subject. -/
theorem C5_literal_match (w t : List Nat) (hw0 : 0 ∉ w) (hws : star ∉ w)
    (hwq : quest ∉ w) (ht0 : 0 ∉ t) :
    FastWildCompareUtf8 w t = true ↔ w = t := by
  obtain ⟨v, hv, hiff⟩ :=
    loop1F_literal w t hw0 hws hwq ht0 (fuel1 t) 0 (by unfold fuel1; omega)
  have hrun : FastWildCompareUtf8 w t = v := by
    unfold FastWildCompareUtf8 matchRun
    rw [hv]
    rfl
  rw [hrun, hiff]
  simp only [Nat.zero_add]
  constructor
  · intro hall
    have hlen : w.length = t.length := by
      by_contra hne
      rcases Nat.lt_or_ge w.length t.length with hl | hl
      · have hz : byteAt w w.length = 0 := byteAt_eq_zero_of_le w _ le_rfl
        have hh := hall w.length
        rw [hz] at hh
        exact absurd ((byteAt_eq_zero_iff t ht0 _).mp hh.symm) (by omega)
      · rcases Nat.lt_or_ge t.length w.length with hl2 | hl2
        · have hz : byteAt t t.length = 0 := byteAt_eq_zero_of_le t _ le_rfl
          have hh := hall t.length
          rw [hz] at hh
          exact absurd ((byteAt_eq_zero_iff w hw0 _).mp hh) (by omega)
        · omega
    refine List.ext_getElem hlen (fun n h1 h2 => ?_)
    have hh := hall n
    rwa [byteAt, byteAt, List.getD_eq_getElem w 0 h1, List.getD_eq_getElem t 0 h2] at hh
  · intro he
    subst he
    intro j
    rfl

/-- Witness for C5: the one-byte literal pattern `a` matches itself and,
via the counterpositive direction, equality of the buffers. -/
theorem C5_literal_match_witness : FastWildCompareUtf8 [97] [97] = true :=
  (C5_literal_match [97] [97] (by decide) (by decide) (by decide) (by decide)).mpr rfl

/-! Fuel-sufficiency development: the fuel supplied by the wrappers is
always enough, i.e. both matchers terminate on every input of the
model.  The second loops are handled with the lexicographic measure
(subject length - fallback position, subject length + 4 - position),
flattened to the scalar `(L - its) * (L + 5) + (L + 4 - it)`. -/

theorem byteAt_lt_length (s : List Nat) (i : Nat) (h : byteAt s i ≠ 0) : i < s.length := by
  rcases Nat.lt_or_ge i s.length with hl | hl
  · exact hl
  · exact absurd (byteAt_eq_zero_of_le s i hl) h

theorem cpWidth_pos_of_byte (s : List Nat) (i j : Nat) (hj : j = i + cpWidth s i)
    (h : byteAt s j ≠ 0) : 1 ≤ cpWidth s i := by
  by_contra hb
  push_neg at hb
  have h0 : cpWidth s i = 0 := by omega
  rw [h0, Nat.add_zero] at hj
  subst hj
  exact absurd (cpWidth_pos s j h) (by omega)

theorem skipStarsF_isSome (w : List Nat) :
    ∀ fuel i, w.length - i < fuel → (skipStarsF w fuel i).isSome := by
  intro fuel
  induction fuel with
  | zero => intro i h; omega
  | succ f ih =>
    intro i h
    simp only [skipStarsF]
    by_cases hs : byteAt w (i + cpWidth w i) = star
    · rw [if_pos hs]
      have hne : byteAt w (i + cpWidth w i) ≠ 0 := by
        rw [hs]; decide
      have hj : i + cpWidth w i < w.length := byteAt_lt_length w _ hne
      have hpos : 1 ≤ cpWidth w i := cpWidth_pos_of_byte w i _ rfl hne
      exact ih (i + cpWidth w i) (by omega)
    · rw [if_neg hs]
      rfl

theorem searchF_isSome (w : List Nat) (iw : Nat) (t : List Nat) :
    ∀ fuel it, t.length - it < fuel → (searchF w iw t fuel it).isSome := by
  intro fuel
  induction fuel with
  | zero => intro it h; omega
  | succ f ih =>
    intro it h
    simp only [searchF]
    by_cases hc : CodePointCompare w iw t it = true
    · rw [if_pos hc]; rfl
    · rw [if_neg hc]
      by_cases hz : byteAt t (it + cpWidth t it) = 0
      · rw [if_pos hz]; rfl
      · rw [if_neg hz]
        have hj : it + cpWidth t it < t.length := byteAt_lt_length t _ hz
        have hpos : 1 ≤ cpWidth t it := cpWidth_pos_of_byte t it _ rfl hz
        exact ih (it + cpWidth t it) (by omega)

theorem retryF_isSome (w : List Nat) (iw : Nat) (t : List Nat) :
    ∀ fuel its, t.length - its < fuel → (retryF w iw t fuel its).isSome := by
  intro fuel
  induction fuel with
  | zero => intro its h; omega
  | succ f ih =>
    intro its h
    simp only [retryF]
    by_cases hc : CodePointCompare w iw t (its + cpWidth t its) = true
    · rw [if_pos hc]; rfl
    · rw [if_neg hc]
      by_cases hz : byteAt t (its + cpWidth t its) = 0
      · rw [if_pos hz]; rfl
      · rw [if_neg hz]
        have hj : its + cpWidth t its < t.length := byteAt_lt_length t _ hz
        have hpos : 1 ≤ cpWidth t its := cpWidth_pos_of_byte t its _ rfl hz
        exact ih (its + cpWidth t its) (by omega)

theorem searchF_some_facts (w : List Nat) (iw : Nat) (t : List Nat) :
    ∀ fuel it it2, searchF w iw t fuel it = some (some it2) →
      it ≤ it2 ∧ CodePointCompare w iw t it2 = true := by
  intro fuel
  induction fuel with
  | zero => intro it it2 h; exact absurd h (by simp [searchF])
  | succ f ih =>
    intro it it2 h
    simp only [searchF] at h
    by_cases hc : CodePointCompare w iw t it = true
    · rw [if_pos hc] at h
      obtain rfl : it = it2 := by simpa using h
      exact ⟨le_rfl, hc⟩
    · rw [if_neg hc] at h
      by_cases hz : byteAt t (it + cpWidth t it) = 0
      · rw [if_pos hz] at h
        simp at h
      · rw [if_neg hz] at h
        obtain ⟨h1, h2⟩ := ih (it + cpWidth t it) it2 h
        exact ⟨by omega, h2⟩

theorem retryF_some_facts (w : List Nat) (iw : Nat) (t : List Nat) :
    ∀ fuel its j, retryF w iw t fuel its = some (some j) →
      (j = its ∧ byteAt t its = 0) ∨ its < j := by
  intro fuel
  induction fuel with
  | zero => intro its j h; exact absurd h (by simp [retryF])
  | succ f ih =>
    intro its j h
    simp only [retryF] at h
    by_cases hc : CodePointCompare w iw t (its + cpWidth t its) = true
    · rw [if_pos hc] at h
      obtain rfl : its + cpWidth t its = j := by simpa using h
      rcases Nat.eq_zero_or_pos (cpWidth t its) with h0 | h0
      · left
        refine ⟨by omega, ?_⟩
        by_contra hb
        exact absurd (cpWidth_pos t its hb) (by omega)
      · right; omega
    · rw [if_neg hc] at h
      by_cases hz : byteAt t (its + cpWidth t its) = 0
      · rw [if_pos hz] at h
        simp at h
      · rw [if_neg hz] at h
        rcases ih (its + cpWidth t its) j h with ⟨rfl, hb⟩ | hlt
        · exact absurd hb hz
        · have hpos : 1 ≤ cpWidth t its := cpWidth_pos_of_byte t its _ rfl hz
          right; omega

theorem loop1F_isSome (w t : List Nat) :
    ∀ fuel iw it, (t.length - it) + 2 ≤ fuel → (loop1F w t fuel iw it).isSome := by
  intro fuel
  induction fuel with
  | zero => intro iw it h; omega
  | succ f ih =>
    intro iw it h
    rw [loop1F]
    by_cases htz : byteAt t it = 0
    · rw [if_pos htz]
      split_ifs <;> rfl
    · rw [if_neg htz]
      by_cases hstar : byteAt w iw = star
      · rw [if_pos hstar]
        split
        · rename_i heq
          have hs := skipStarsF_isSome w (w.length + 1) iw (by omega)
          rw [heq] at hs
          simp at hs
        · rename_i jw heq
          by_cases hjz : byteAt w jw = 0
          · rw [if_pos hjz]; rfl
          · rw [if_neg hjz]
            by_cases hjq : byteAt w jw ≠ quest
            · rw [if_pos hjq]
              split
              · rename_i heq2
                have hs := searchF_isSome w jw t (t.length + 1) it (by omega)
                rw [heq2] at hs
                simp at hs
              · rfl
              · rfl
            · rw [if_neg hjq]; rfl
      · rw [if_neg hstar]
        by_cases hmis : CodePointCompare w iw t it = false ∧ byteAt w iw ≠ quest
        · rw [if_pos hmis]; rfl
        · rw [if_neg hmis]
          have hlt : it < t.length := byteAt_lt_length t it htz
          have hpos : 1 ≤ cpWidth t it := cpWidth_pos t it htz
          exact ih (iw + cpWidth w iw) (it + cpWidth t it) (by omega)

theorem loop1F_inr_facts (w t : List Nat) :
    ∀ fuel iw it jw jt, loop1F w t fuel iw it = some (Sum.inr (jw, jt)) →
      byteAt t jt ≠ 0 ∧ byteAt w jw ≠ 0 := by
  intro fuel
  induction fuel with
  | zero => intro iw it jw jt h; exact absurd h (by simp [loop1F])
  | succ f ih =>
    intro iw it jw jt h
    rw [loop1F] at h
    by_cases htz : byteAt t it = 0
    · rw [if_pos htz] at h
      split_ifs at h <;> simp at h
    · rw [if_neg htz] at h
      by_cases hstar : byteAt w iw = star
      · rw [if_pos hstar] at h
        split at h
        · simp at h
        · rename_i jw2 hjw
          by_cases hjz : byteAt w jw2 = 0
          · rw [if_pos hjz] at h
            simp at h
          · rw [if_neg hjz] at h
            by_cases hjq : byteAt w jw2 ≠ quest
            · rw [if_pos hjq] at h
              split at h
              · simp at h
              · simp at h
              · rename_i it2 hse
                obtain ⟨heq1, heq2⟩ : jw2 = jw ∧ it2 = jt := by
                  simpa using h
                subst heq1
                subst heq2
                obtain ⟨-, hcmp⟩ := searchF_some_facts w jw2 t _ it it2 hse
                have hhd := ((cpCompare_true_iff w jw2 t it2).mp hcmp).1
                exact ⟨by rw [← hhd]; exact hjz, hjz⟩
            · rw [if_neg hjq] at h
              obtain ⟨heq1, heq2⟩ : jw2 = jw ∧ it = jt := by
                simpa using h
              subst heq1
              subst heq2
              exact ⟨htz, hjz⟩
      · rw [if_neg hstar] at h
        by_cases hmis : CodePointCompare w iw t it = false ∧ byteAt w iw ≠ quest
        · rw [if_pos hmis] at h
          simp at h
        · rw [if_neg hmis] at h
          exact ih _ _ _ _ h

theorem lexMeasure_lt (L a a2 b b2 : Nat) (ha : a2 < a) (hb2 : b2 ≤ L + 4) :
    a2 * (L + 5) + b2 < a * (L + 5) + b := by
  have h1 : (a2 + 1) * (L + 5) ≤ a * (L + 5) := Nat.mul_le_mul_right _ ha
  have h2 : a2 * (L + 5) + (L + 5) = (a2 + 1) * (L + 5) := by ring
  omega

theorem loop2F_isSome (w t : List Nat) :
    ∀ fuel iw it iws its, byteAt t its ≠ 0 → its ≤ it →
      (t.length - its) * (t.length + 5) + (t.length + 4 - it) < fuel →
      (loop2F w t fuel iw it iws its).isSome := by
  intro fuel
  induction fuel with
  | zero => intro iw it iws its h1 h2 h3; omega
  | succ f ih =>
    intro iw it iws its hinv1 hinv2 hfuel
    have hitsL : its < t.length := byteAt_lt_length t its hinv1
    simp only [loop2F]
    by_cases hstar : byteAt w iw = star
    · rw [if_pos hstar]
      by_cases hjz : byteAt w (skipStarsB w iw) = 0
      · rw [if_pos hjz]; rfl
      · rw [if_neg hjz]
        by_cases htz : byteAt t it = 0
        · rw [if_pos htz]; rfl
        · rw [if_neg htz]
          have hitL : it < t.length := byteAt_lt_length t it htz
          by_cases hjq : byteAt w (skipStarsB w iw) ≠ quest
          · rw [if_pos hjq]
            split
            · rename_i heq
              have hs := searchF_isSome w (skipStarsB w iw) t (t.length + 1) it (by omega)
              rw [heq] at hs
              simp at hs
            · rfl
            · rename_i it2 hse
              by_cases ht2z : byteAt t it2 = 0
              · rw [if_pos ht2z]; rfl
              · rw [if_neg ht2z]
                obtain ⟨hle, -⟩ := searchF_some_facts w _ t _ it it2 hse
                have hit2L : it2 < t.length := byteAt_lt_length t it2 ht2z
                have hwid : 1 ≤ cpWidth t it2 := cpWidth_pos t it2 ht2z
                rcases Nat.lt_or_ge its it2 with hlt | hge
                · refine ih _ _ _ _ ht2z (Nat.le_add_right _ _) ?_
                  have hm := lexMeasure_lt t.length (t.length - its) (t.length - it2)
                    (t.length + 4 - it) (t.length + 4 - (it2 + cpWidth t it2))
                    (by omega) (by omega)
                  omega
                · have h1 : its = it2 := by omega
                  have h2 : it = it2 := by omega
                  subst h1
                  refine ih _ _ _ _ ht2z (Nat.le_add_right _ _) ?_
                  omega
          · rw [if_neg hjq, if_neg htz]
            have hwid : 1 ≤ cpWidth t it := cpWidth_pos t it htz
            rcases Nat.lt_or_ge its it with hlt | hge
            · refine ih _ _ _ _ htz (Nat.le_add_right _ _) ?_
              have hm := lexMeasure_lt t.length (t.length - its) (t.length - it)
                (t.length + 4 - it) (t.length + 4 - (it + cpWidth t it))
                (by omega) (by omega)
              omega
            · have h1 : its = it := by omega
              subst h1
              refine ih _ _ _ _ htz (Nat.le_add_right _ _) ?_
              omega
    · rw [if_neg hstar]
      by_cases hmis : CodePointCompare w iw t it = false ∧ byteAt w iw ≠ quest
      · rw [if_pos hmis]
        by_cases htz : byteAt t it = 0
        · rw [if_pos htz]; rfl
        · rw [if_neg htz]
          split
          · rename_i heq
            have hs := retryF_isSome w (iws + questRun (w.drop iws)) t (t.length + 1)
              (its + questRun (w.drop iws)) (by omega)
            rw [heq] at hs
            simp at hs
          · rfl
          · rename_i its3 hre
            by_cases h3z : byteAt t its3 = 0
            · rw [if_pos h3z]; rfl
            · rw [if_neg h3z]
              have hit3L : its3 < t.length := byteAt_lt_length t its3 h3z
              rcases retryF_some_facts w _ t _ (its + questRun (w.drop iws)) its3 hre with
                ⟨heq3, hzz⟩ | hlt3
              · rw [heq3] at h3z
                exact absurd hzz h3z
              · refine ih _ _ _ _ h3z (Nat.le_add_right _ _) ?_
                have hm := lexMeasure_lt t.length (t.length - its) (t.length - its3)
                  (t.length + 4 - it) (t.length + 4 - (its3 + cpWidth t its3))
                  (by omega) (by omega)
                omega
      · rw [if_neg hmis]
        by_cases htz : byteAt t it = 0
        · rw [if_pos htz]; rfl
        · rw [if_neg htz]
          have hitL : it < t.length := byteAt_lt_length t it htz
          have hwid : 1 ≤ cpWidth t it := cpWidth_pos t it htz
          exact ih _ _ _ _ hinv1 (by omega) (by omega)

theorem matchRun_isSome (w t : List Nat) : (matchRun w t).isSome := by
  unfold matchRun
  split
  · rename_i heq
    have hs := loop1F_isSome w t (fuel1 t) 0 0 (by unfold fuel1; omega)
    rw [heq] at hs
    simp at hs
  · rfl
  · rename_i iw it heq
    obtain ⟨hbt, -⟩ := loop1F_inr_facts w t (fuel1 t) 0 0 iw it heq
    have hitL : it < t.length := byteAt_lt_length t it hbt
    refine loop2F_isSome w t (fuel2 t) iw it iw it hbt le_rfl ?_
    unfold fuel2
    have m1 : (t.length - it) * (t.length + 5) ≤ t.length * (t.length + 5) :=
      Nat.mul_le_mul_right _ (Nat.sub_le _ _)
    have m2 : (t.length + 1) * (t.length + 5) = t.length * (t.length + 5) + (t.length + 5) := by
      ring
    omega

/-! The same development for the loops of the bounded matcher. -/

theorem skipStarsLF_isSome (w : List Nat) (lenW : Nat) :
    ∀ fuel i cnt, w.length - i < fuel → (skipStarsLF w lenW fuel i cnt).isSome := by
  intro fuel
  induction fuel with
  | zero => intro i cnt h; omega
  | succ f ih =>
    intro i cnt h
    simp only [skipStarsLF]
    by_cases hz : byteAt w (i + cpWidth w i) = 0
    · rw [if_pos hz]; rfl
    · rw [if_neg hz]
      by_cases hc : byteAt w (i + cpWidth w i) = star ∧ cnt + 1 < lenW
      · rw [if_pos hc]
        have hj : i + cpWidth w i < w.length := byteAt_lt_length w _ hz
        have hpos : 1 ≤ cpWidth w i := cpWidth_pos_of_byte w i _ rfl hz
        exact ih (i + cpWidth w i) (cnt + 1) (by omega)
      · rw [if_neg hc]; rfl

theorem skipStarsBLF_isSome (w : List Nat) (lenW : Nat) :
    ∀ fuel i cnt, w.length - i < fuel → (skipStarsBLF w lenW fuel i cnt).isSome := by
  intro fuel
  induction fuel with
  | zero => intro i cnt h; omega
  | succ f ih =>
    intro i cnt h
    simp only [skipStarsBLF]
    by_cases hs : byteAt w (i + 1) = star
    · rw [if_pos hs]
      by_cases hl : lenW ≤ cnt + 1
      · rw [if_pos hl]; rfl
      · rw [if_neg hl]
        have hj : i + 1 < w.length := byteAt_lt_length w _ (by rw [hs]; decide)
        exact ih (i + 1) (cnt + 1) (by omega)
    · rw [if_neg hs]; rfl

theorem searchLF_isSome (w : List Nat) (iw : Nat) (t : List Nat) :
    ∀ fuel it cnt, t.length - it < fuel → (searchLF w iw t fuel it cnt).isSome := by
  intro fuel
  induction fuel with
  | zero => intro it cnt h; omega
  | succ f ih =>
    intro it cnt h
    simp only [searchLF]
    by_cases hc : CodePointCompare w iw t it = true
    · rw [if_pos hc]; rfl
    · rw [if_neg hc]
      by_cases hz : byteAt t (it + cpWidth t it) = 0
      · rw [if_pos hz]; rfl
      · rw [if_neg hz]
        have hj : it + cpWidth t it < t.length := byteAt_lt_length t _ hz
        have hpos : 1 ≤ cpWidth t it := cpWidth_pos_of_byte t it _ rfl hz
        exact ih (it + cpWidth t it) (cnt + 1) (by omega)

theorem retryLF_isSome (w : List Nat) (iw : Nat) (t : List Nat) (lenT : Nat) :
    ∀ fuel its cnt, t.length - its < fuel → (retryLF w iw t lenT fuel its cnt).isSome := by
  intro fuel
  induction fuel with
  | zero => intro its cnt h; omega
  | succ f ih =>
    intro its cnt h
    simp only [retryLF]
    by_cases hc : CodePointCompare w iw t (its + cpWidth t its) = true
    · rw [if_pos hc]; rfl
    · rw [if_neg hc]
      by_cases hz : lenT ≤ cnt + 1 ∨ byteAt t (its + cpWidth t its) = 0
      · rw [if_pos hz]; rfl
      · rw [if_neg hz]
        push_neg at hz
        have hj : its + cpWidth t its < t.length := byteAt_lt_length t _ hz.2
        have hpos : 1 ≤ cpWidth t its := cpWidth_pos_of_byte t its _ rfl hz.2
        exact ih (its + cpWidth t its) (cnt + 1) (by omega)

theorem searchLF_some_facts (w : List Nat) (iw : Nat) (t : List Nat) :
    ∀ fuel it cnt it2 d, searchLF w iw t fuel it cnt = some (some (it2, d)) →
      it ≤ it2 ∧ CodePointCompare w iw t it2 = true := by
  intro fuel
  induction fuel with
  | zero => intro it cnt it2 d h; exact absurd h (by simp [searchLF])
  | succ f ih =>
    intro it cnt it2 d h
    simp only [searchLF] at h
    by_cases hc : CodePointCompare w iw t it = true
    · rw [if_pos hc] at h
      obtain ⟨rfl, -⟩ : it = it2 ∧ cnt = d := by simpa using h
      exact ⟨le_rfl, hc⟩
    · rw [if_neg hc] at h
      by_cases hz : byteAt t (it + cpWidth t it) = 0
      · rw [if_pos hz] at h
        simp at h
      · rw [if_neg hz] at h
        obtain ⟨h1, h2⟩ := ih (it + cpWidth t it) (cnt + 1) it2 d h
        exact ⟨by omega, h2⟩

theorem retryLF_some_facts (w : List Nat) (iw : Nat) (t : List Nat) (lenT : Nat) :
    ∀ fuel its cnt j c, retryLF w iw t lenT fuel its cnt = some (some (j, c)) →
      (j = its ∧ byteAt t its = 0) ∨ its < j := by
  intro fuel
  induction fuel with
  | zero => intro its cnt j c h; exact absurd h (by simp [retryLF])
  | succ f ih =>
    intro its cnt j c h
    simp only [retryLF] at h
    by_cases hc : CodePointCompare w iw t (its + cpWidth t its) = true
    · rw [if_pos hc] at h
      obtain ⟨heq, -⟩ : its + cpWidth t its = j ∧ cnt = c := by simpa using h
      rcases Nat.eq_zero_or_pos (cpWidth t its) with h0 | h0
      · left
        refine ⟨by omega, ?_⟩
        by_contra hb
        exact absurd (cpWidth_pos t its hb) (by omega)
      · right; omega
    · rw [if_neg hc] at h
      by_cases hz : lenT ≤ cnt + 1 ∨ byteAt t (its + cpWidth t its) = 0
      · rw [if_pos hz] at h
        simp at h
      · rw [if_neg hz] at h
        push_neg at hz
        rcases ih (its + cpWidth t its) (cnt + 1) j c h with ⟨heq2, hb⟩ | hlt
        · exact absurd hb hz.2
        · have hpos : 1 ≤ cpWidth t its := cpWidth_pos_of_byte t its _ rfl hz.2
          right; omega

theorem loop1LF_isSome (w t : List Nat) (lenW lenT : Nat) :
    ∀ fuel iwp itp cW, (t.length - itp) + 2 ≤ fuel →
      (loop1LF w t lenW lenT fuel iwp itp cW).isSome := by
  intro fuel
  induction fuel with
  | zero => intro iwp itp cW h; omega
  | succ f ih =>
    intro iwp itp cW h
    rw [loop1LF]
    by_cases hend : lenT ≤ cW ∨ byteAt t itp = 0
    · rw [if_pos hend]
      split_ifs <;> rfl
    · rw [if_neg hend]
      push_neg at hend
      by_cases hlw : lenW ≤ cW
      · rw [if_pos hlw]; rfl
      · rw [if_neg hlw]
        by_cases hstar : byteAt w iwp = star
        · rw [if_pos hstar]
          split
          · rename_i heq
            have hs := skipStarsLF_isSome w lenW (w.length + 2) iwp cW (by omega)
            rw [heq] at hs
            simp at hs
          · rename_i jw cW2 heq
            by_cases hjz : byteAt w jw = 0
            · rw [if_pos hjz]; rfl
            · rw [if_neg hjz]
              by_cases hjq : byteAt w jw ≠ quest
              · rw [if_pos hjq]
                split
                · rename_i heq2
                  have hs := searchLF_isSome w jw t (t.length + 1) itp 0 (by omega)
                  rw [heq2] at hs
                  simp at hs
                · rfl
                · rfl
              · rw [if_neg hjq]; rfl
        · rw [if_neg hstar]
          by_cases hmis : CodePointCompare w iwp t itp = false ∧ byteAt w iwp ≠ quest
          · rw [if_pos hmis]; rfl
          · rw [if_neg hmis]
            have hlt : itp < t.length := byteAt_lt_length t itp hend.2
            have hpos : 1 ≤ cpWidth t itp := cpWidth_pos t itp hend.2
            exact ih (iwp + cpWidth w iwp) (itp + cpWidth t itp) (cW + 1) (by omega)

theorem loop1LF_inr_facts (w t : List Nat) (lenW lenT : Nat) :
    ∀ fuel iwp itp cW jw jt c1 c2,
      loop1LF w t lenW lenT fuel iwp itp cW = some (Sum.inr (jw, jt, c1, c2)) →
      byteAt t jt ≠ 0 ∧ byteAt w jw ≠ 0 := by
  intro fuel
  induction fuel with
  | zero => intro iwp itp cW jw jt c1 c2 h; exact absurd h (by simp [loop1LF])
  | succ f ih =>
    intro iwp itp cW jw jt c1 c2 h
    rw [loop1LF] at h
    by_cases hend : lenT ≤ cW ∨ byteAt t itp = 0
    · rw [if_pos hend] at h
      split_ifs at h <;> simp at h
    · rw [if_neg hend] at h
      push_neg at hend
      by_cases hlw : lenW ≤ cW
      · rw [if_pos hlw] at h
        simp at h
      · rw [if_neg hlw] at h
        by_cases hstar : byteAt w iwp = star
        · rw [if_pos hstar] at h
          split at h
          · simp at h
          · rename_i jw2 cW2 hjw
            by_cases hjz : byteAt w jw2 = 0
            · rw [if_pos hjz] at h
              simp at h
            · rw [if_neg hjz] at h
              by_cases hjq : byteAt w jw2 ≠ quest
              · rw [if_pos hjq] at h
                split at h
                · simp at h
                · simp at h
                · rename_i it2 d hse
                  obtain ⟨heq1, heq2, -, -⟩ :
                      jw2 = jw ∧ it2 = jt ∧ cW2 = c1 ∧ cW + d = c2 := by
                    simpa using h
                  subst heq1
                  subst heq2
                  obtain ⟨-, hcmp⟩ := searchLF_some_facts w jw2 t _ itp 0 it2 d hse
                  have hhd := ((cpCompare_true_iff w jw2 t it2).mp hcmp).1
                  exact ⟨by rw [← hhd]; exact hjz, hjz⟩
              · rw [if_neg hjq] at h
                obtain ⟨heq1, heq2, -, -⟩ :
                    jw2 = jw ∧ itp = jt ∧ cW2 = c1 ∧ cW = c2 := by
                  simpa using h
                subst heq1
                subst heq2
                exact ⟨hend.2, hjz⟩
        · rw [if_neg hstar] at h
          by_cases hmis : CodePointCompare w iwp t itp = false ∧ byteAt w iwp ≠ quest
          · rw [if_pos hmis] at h
            simp at h
          · rw [if_neg hmis] at h
            exact ih _ _ _ _ _ _ _ h

theorem loop2LF_isSome (w t : List Nat) (lenW lenT : Nat) :
    ∀ fuel iwp itp cW cT siw sit scW scT, byteAt t sit ≠ 0 → sit ≤ itp →
      (t.length - sit) * (t.length + 5) + (t.length + 4 - itp) < fuel →
      (loop2LF w t lenW lenT fuel iwp itp cW cT siw sit scW scT).isSome := by
  intro fuel
  induction fuel with
  | zero => intro iwp itp cW cT siw sit scW scT h1 h2 h3; omega
  | succ f ih =>
    intro iwp itp cW cT siw sit scW scT hinv1 hinv2 hfuel
    have hsitL : sit < t.length := byteAt_lt_length t sit hinv1
    simp only [loop2LF]
    by_cases hstar : byteAt w iwp = star
    · rw [if_pos hstar]
      split
      · rename_i heq
        have hs := skipStarsBLF_isSome w lenW (w.length + 2) iwp (cW + 1) (by omega)
        rw [heq] at hs
        simp at hs
      · rename_i jw cW2 early heq
        by_cases he : early = true
        · rw [if_pos he]; rfl
        · rw [if_neg he]
          by_cases h1 : lenW ≤ cW2 ∨ byteAt w jw = 0
          · rw [if_pos h1]; rfl
          · rw [if_neg h1]
            push_neg at h1
            by_cases h2 : lenT ≤ cT ∨ byteAt t itp = 0
            · rw [if_pos h2]; rfl
            · rw [if_neg h2]
              push_neg at h2
              have hitL : itp < t.length := byteAt_lt_length t itp h2.2
              by_cases hjq : byteAt w jw ≠ quest
              · rw [if_pos hjq]
                split
                · rename_i heq2
                  have hs := searchLF_isSome w jw t (t.length + 1) itp 0 (by omega)
                  rw [heq2] at hs
                  simp at hs
                · rfl
                · rename_i it2 d hse
                  by_cases h3 : lenT ≤ cT + d ∨ byteAt t it2 = 0
                  · rw [if_pos h3]; rfl
                  · rw [if_neg h3]
                    push_neg at h3
                    obtain ⟨hle, -⟩ := searchLF_some_facts w jw t _ itp 0 it2 d hse
                    have hit2L : it2 < t.length := byteAt_lt_length t it2 h3.2
                    have hwid : 1 ≤ cpWidth t it2 := cpWidth_pos t it2 h3.2
                    rcases Nat.lt_or_ge sit it2 with hlt | hge
                    · refine ih _ _ _ _ _ _ _ _ h3.2 (Nat.le_add_right _ _) ?_
                      have hm := lexMeasure_lt t.length (t.length - sit) (t.length - it2)
                        (t.length + 4 - itp) (t.length + 4 - (it2 + cpWidth t it2))
                        (by omega) (by omega)
                      omega
                    · have he1 : sit = it2 := by omega
                      have he2 : itp = it2 := by omega
                      subst he1
                      refine ih _ _ _ _ _ _ _ _ h3.2 (Nat.le_add_right _ _) ?_
                      omega
              · rw [if_neg hjq]
                have hn2 : ¬(lenT ≤ cT ∨ byteAt t itp = 0) := by
                  push_neg
                  exact h2
                rw [if_neg hn2]
                have hwid : 1 ≤ cpWidth t itp := cpWidth_pos t itp h2.2
                rcases Nat.lt_or_ge sit itp with hlt | hge
                · refine ih _ _ _ _ _ _ _ _ h2.2 (Nat.le_add_right _ _) ?_
                  have hm := lexMeasure_lt t.length (t.length - sit) (t.length - itp)
                    (t.length + 4 - itp) (t.length + 4 - (itp + cpWidth t itp))
                    (by omega) (by omega)
                  omega
                · have he1 : sit = itp := by omega
                  subst he1
                  refine ih _ _ _ _ _ _ _ _ h2.2 (Nat.le_add_right _ _) ?_
                  omega
    · rw [if_neg hstar]
      by_cases hmis : CodePointCompare w iwp t itp = false ∧ byteAt w iwp ≠ quest
      · rw [if_pos hmis]
        by_cases h2 : lenT ≤ cT ∨ byteAt t itp = 0
        · rw [if_pos h2]; rfl
        · rw [if_neg h2]
          split
          · rename_i heq
            have hs := retryLF_isSome w (siw + questRun (w.drop siw)) t lenT (t.length + 1)
              (sit + questRun (w.drop siw)) (scT + questRun (w.drop siw)) (by omega)
            rw [heq] at hs
            simp at hs
          · rfl
          · rename_i sit3 scT3 hre
            by_cases h3 : lenT ≤ scT3 ∨ byteAt t sit3 = 0
            · rw [if_pos h3]; rfl
            · rw [if_neg h3]
              push_neg at h3
              have hit3L : sit3 < t.length := byteAt_lt_length t sit3 h3.2
              rcases retryLF_some_facts w _ t lenT _ (sit + questRun (w.drop siw))
                  (scT + questRun (w.drop siw)) sit3 scT3 hre with ⟨heq3, hzz⟩ | hlt3
              · rw [heq3] at h3
                exact absurd hzz h3.2
              · refine ih _ _ _ _ _ _ _ _ h3.2 (Nat.le_add_right _ _) ?_
                have hm := lexMeasure_lt t.length (t.length - sit) (t.length - sit3)
                  (t.length + 4 - itp) (t.length + 4 - (sit3 + cpWidth t sit3))
                  (by omega) (by omega)
                omega
      · rw [if_neg hmis]
        by_cases h2 : lenT ≤ cT ∨ byteAt t itp = 0
        · rw [if_pos h2]; rfl
        · rw [if_neg h2]
          push_neg at h2
          have hitL : itp < t.length := byteAt_lt_length t itp h2.2
          have hwid : 1 ≤ cpWidth t itp := cpWidth_pos t itp h2.2
          exact ih _ _ _ _ _ _ _ _ hinv1 (by omega) (by omega)

theorem matchLenRun_isSome (w t : List Nat) (lenW lenT : Nat) :
    (matchLenRun w t lenW lenT).isSome := by
  unfold matchLenRun
  split
  · rename_i heq
    have hs := loop1LF_isSome w t lenW lenT (fuel1 t) 0 0 0 (by unfold fuel1; omega)
    rw [heq] at hs
    simp at hs
  · rfl
  · rename_i iw it cW cT heq
    obtain ⟨hbt, -⟩ := loop1LF_inr_facts w t lenW lenT (fuel1 t) 0 0 0 iw it cW cT heq
    have hitL : it < t.length := byteAt_lt_length t it hbt
    refine loop2LF_isSome w t lenW lenT (fuel2 t) iw it cW cT iw it cW cT hbt le_rfl ?_
    unfold fuel2
    have m1 : (t.length - it) * (t.length + 5) ≤ t.length * (t.length + 5) :=
      Nat.mul_le_mul_right _ (Nat.sub_le _ _)
    have m2 : (t.length + 1) * (t.length + 5) = t.length * (t.length + 5) + (t.length + 5) := by
      ring
    omega

/-- C7: both matchers terminate: the fuel supplied by the wrappers is
sufficient on every input (in particular on every well-formed
terminator-delimited pair), so `FastWildCompareUtf8` and
`FastWildLenCompareUtf8` always reach a verdict. -/
theorem C7_both_matchers_terminate :
    ∀ w t : List Nat, (matchRun w t).isSome ∧
      ∀ lenW lenT : Nat, (matchLenRun w t lenW lenT).isSome :=
  fun w t => ⟨matchRun_isSome w t, fun lenW lenT => matchLenRun_isSome w t lenW lenT⟩

end Wildcard
